import Mathlib

/-!
Shallow embedding of `src/lib/offtarget/search.c` (the `offtarget_search`
tool): base normalization, guide CSV row parsing, FASTA header parsing,
the validity-mask builder, the thread-count override parser, and the two
matching-kernel backends (AVX2 and scalar), together with proofs of the
specification claims about them.

Bytes are modelled as `Char`, byte buffers as `List Char`, machine
integers as `ℕ`/`ℤ`.  Out-of-range buffer reads are modelled with
`List.getD` and the sentinel default; in the real program all reads that
influence results stay in range (the buffer carries 32 trailing sentinel
bytes).
-/

namespace Offtarget

/-- C `isspace` in the default locale: space, tab, newline, vertical tab,
form feed, carriage return. -/
def c_isspace (c : Char) : Bool :=
  c = ' ' || c = '\t' || c = '\n' || c = '\x0b' || c = '\x0c' || c = '\r'

/-- `normalize_base` (search.c): map a byte to the 5-symbol alphabet
{A,C,G,T,N}; `U`/`u` map to `T`; everything unrecognized maps to `N`. -/
def normalize_base (c : Char) : Char :=
  if c = 'A' || c = 'a' then 'A'
  else if c = 'C' || c = 'c' then 'C'
  else if c = 'G' || c = 'g' then 'G'
  else if c = 'T' || c = 't' || c = 'U' || c = 'u' then 'T'
  else 'N'

/-- The `Guide` record (search.c): gene label and normalized sequence.
`load_guides` guarantees the C `length` field equals `strlen(sequence)`,
so the stored length is represented by `sequence.length`. -/
structure Guide where
  gene : List Char
  sequence : List Char
deriving DecidableEq

instance : Inhabited Guide := ⟨⟨[], []⟩⟩

/-- The `TranscriptInfo` record descriptor (search.c): start offset into
the reference buffer, number of base bytes, and the two header strings. -/
structure TranscriptInfo where
  start : ℕ
  length : ℕ
  transcript_id : List Char
  gene_symbol : List Char
deriving DecidableEq

instance : Inhabited TranscriptInfo := ⟨⟨0, 0, [], []⟩⟩

/-- The per-guide result slot (search.c `GuideResult`): the mismatch
histogram `counts[0..5]` and the deduplicated record-index list of exact
hits.  The C array of 6 counters is modelled as a function; indices above
5 are never written and stay 0. -/
structure GuideResult where
  counts : ℕ → ℕ
  mm0_transcripts : List ℕ

instance : Inhabited GuideResult := ⟨⟨fun _ => 0, []⟩⟩

/-- `trim_whitespace_inplace` (search.c): drop leading whitespace, then
drop trailing whitespace. -/
def trim_whitespace (l : List Char) : List Char :=
  ((l.dropWhile (fun c => c_isspace c)).reverse.dropWhile (fun c => c_isspace c)).reverse

/-- `hitlist_add` (search.c): linear-scan deduplicating insertion; the
value is appended only when it is not already present. -/
def hitlist_add (l : List ℕ) (v : ℕ) : List ℕ :=
  if v ∈ l then l else l ++ [v]

/-- Read a reference-buffer byte.  All reads that reach a result in the C
program are in range; the sentinel is used as the out-of-range default. -/
def refAt (B : List Char) (i : ℕ) : Char := B.getD i 'X'

/-- The inner mismatch loop of `process_group_scalar` (search.c): walk the
guide bytes, count mismatching positions, and break out as soon as the
count exceeds `MAX_MISMATCHES = 5`.  `qs` is the not-yet-compared suffix
of the guide sequence, `k` the current byte index, `m` the running count. -/
def mismatch_scan (B : List Char) (pos : ℕ) : List Char → ℕ → ℕ → ℕ
  | [], _, m => m
  | q :: qs, k, m =>
    if refAt B (pos + k) ≠ q then
      if 5 < m + 1 then m + 1 else mismatch_scan B pos qs (k + 1) (m + 1)
    else mismatch_scan B pos qs (k + 1) m

/-- The scalar backend's per-window mismatch count (early exit at 6). -/
def scalar_mismatches (B : List Char) (seq : List Char) (pos : ℕ) : ℕ :=
  mismatch_scan B pos seq 0 0

/-- `mask_for_length` (search.c): the 32-bit mask selecting the first
`length` byte lanes. -/
def mask_for_length (length : ℕ) : ℕ :=
  if 32 ≤ length then 0xFFFFFFFF else 2 ^ length - 1

/-- Byte `k` of the `padded[j]` array in `process_group_avx2` (search.c):
the guide sequence copied over a buffer pre-filled with sentinels. -/
def padded_query (seq : List Char) (k : ℕ) : Char := seq.getD k 'X'

/-- The AVX2 backend's per-window match count:
`_mm256_cmpeq_epi8` + `_mm256_movemask_epi8` produce a 32-bit mask whose
bit `k` is set iff window byte `k` equals padded-query byte `k`;
`eq_mask &= query_masks[j]` keeps only the first `length` lanes; and
`__builtin_popcount` counts the remaining set bits.  The definition counts
the set bits of that AND directly. -/
def avx2_window_matches (B : List Char) (seq : List Char) (pos : ℕ) : ℕ :=
  ((List.range 32).filter (fun k =>
    decide (refAt B (pos + k) = padded_query seq k)
      && (mask_for_length seq.length).testBit k)).length

/-- The AVX2 backend's per-window mismatch count:
`mismatches = length - matches` (search.c).  The subtraction never
underflows because at most `length` masked lanes can match. -/
def avx2_mismatches (B : List Char) (seq : List Char) (pos : ℕ) : ℕ :=
  seq.length - avx2_window_matches B seq pos

/-- One guide's update at one candidate position (shared tail of the two
kernels in search.c): skip the window if it would cross the end of the
current record; otherwise compute the mismatch count with the backend's
window primitive `mm`, and if it is at most 5 bump the histogram cell and,
on an exact hit, record the current record index. -/
def guide_step (mm : List Char → List Char → ℕ → ℕ) (B : List Char)
    (tIdx tEnd pos : ℕ) (g : Guide) (acc : GuideResult) : GuideResult :=
  if tEnd < pos + g.sequence.length then acc
  else
    let m := mm B g.sequence pos
    if m ≤ 5 then
      { counts := fun q => if q = m then acc.counts m + 1 else acc.counts q
        mm0_transcripts :=
          if m = 0 then hitlist_add acc.mm0_transcripts tIdx else acc.mm0_transcripts }
    else acc

/-- The cursor-advance `while` loop of both kernels (search.c):
starting from `idx`, step to the next record while the next record's
start offset is at most `pos`.  The loop takes at most `recs.length`
steps, which is supplied as structural fuel. -/
def cursor_advance_go (recs : List TranscriptInfo) (pos : ℕ) : ℕ → ℕ → ℕ
  | 0, idx => idx
  | fuel + 1, idx =>
    if idx + 1 < recs.length ∧ (recs.getD (idx + 1) default).start ≤ pos then
      cursor_advance_go recs pos fuel (idx + 1)
    else idx

/-- The cursor-advance loop with its (always sufficient) fuel. -/
def cursor_advance (recs : List TranscriptInfo) (pos idx : ℕ) : ℕ :=
  cursor_advance_go recs pos recs.length idx

/-- One iteration of the position loop shared by both kernels (search.c):
advance the record cursor, skip invalid positions and positions outside
the current record, and otherwise update every guide of the group against
the window at `pos`. -/
def pos_step (mm : List Char → List Char → ℕ → ℕ) (B : List Char) (V : List Bool)
    (recs : List TranscriptInfo) (guides : List Guide)
    (st : ℕ × List GuideResult) (pos : ℕ) : ℕ × List GuideResult :=
  let idx := cursor_advance recs pos st.1
  let t := recs.getD idx default
  if V.getD pos false = false then (idx, st.2)
  else if pos < t.start then (idx, st.2)
  else if t.start + t.length ≤ pos then (idx, st.2)
  else (idx, List.zipWith (guide_step mm B idx (t.start + t.length) pos) guides st.2)

/-- The kernel scaffold shared verbatim by `process_group_avx2` and
`process_group_scalar` (search.c lines 482-578 and 580-662 differ only in
the per-window mismatch computation `mm`): sweep positions
`0 ≤ pos < search_limit` with the record cursor starting at 0 and all
per-guide accumulators zeroed. -/
def process_group (mm : List Char → List Char → ℕ → ℕ) (B : List Char) (V : List Bool)
    (search_limit : ℕ) (recs : List TranscriptInfo) (guides : List Guide) :
    List GuideResult :=
  ((List.range search_limit).foldl (pos_step mm B V recs guides)
    (0, guides.map fun _ => (default : GuideResult))).2

/-- `process_group_avx2` (search.c): the AVX2 backend. -/
def process_group_avx2 (B : List Char) (V : List Bool) (search_limit : ℕ)
    (recs : List TranscriptInfo) (guides : List Guide) : List GuideResult :=
  process_group avx2_mismatches B V search_limit recs guides

/-- `process_group_scalar` (search.c): the scalar fallback backend. -/
def process_group_scalar (B : List Char) (V : List Bool) (search_limit : ℕ)
    (recs : List TranscriptInfo) (guides : List Guide) : List GuideResult :=
  process_group scalar_mismatches B V search_limit recs guides

/-- The backward pass of `compute_valid_positions` (search.c), processing
the buffer from its high end: returns the running consecutive
non-sentinel counter at the head together with the validity bytes.
A sentinel resets the counter and is marked invalid; any other byte
increments it and is valid iff the counter reaches `maxLength`. -/
def valid_scan (maxLength : ℕ) : List Char → ℕ × List Bool
  | [] => (0, [])
  | c :: rest =>
    let r := valid_scan maxLength rest
    if c = 'X' then (0, false :: r.2)
    else (r.1 + 1, decide (maxLength ≤ r.1 + 1) :: r.2)

/-- `compute_valid_positions` (search.c): the per-position validity mask. -/
def compute_valid_positions (B : List Char) (maxLength : ℕ) : List Bool :=
  (valid_scan maxLength B).2

/-- `strsep(&cursor, sep)` (used in `load_guides`, search.c): the text
before the first separator, and the remainder after it (`none` when the
separator does not occur, matching `strsep` returning the whole string
and setting the cursor to NULL). -/
def split_at_sep (sep : Char) : List Char → List Char × Option (List Char)
  | [] => ([], none)
  | c :: rest =>
    if c = sep then ([], some rest)
    else
      let r := split_at_sep sep rest
      (c :: r.1, r.2)

/-- Outcome of one guide-file data row inside the `load_guides` read loop
(search.c): the row is silently skipped, aborts loading with the
guide-too-long error, or yields a stored guide. -/
inductive RowOutcome where
  | skip : RowOutcome
  | badLength : RowOutcome
  | guide : Guide → RowOutcome
deriving DecidableEq

/-- One iteration of the `load_guides` row loop (search.c): skip rows of
length ≤ 1 and rows without two comma-separated fields; trim the gene
field on both sides; skip leading whitespace of the sequence field and
truncate it at the first comma, CR or LF; skip the row when the remaining
sequence is empty; abort when it is longer than `MAX_GUIDE_LEN = 30`;
otherwise store the gene label truncated to 255 bytes (`strncpy` into a
256-byte array) and the byte-wise normalized sequence. -/
def parse_guide_row (line : List Char) : RowOutcome :=
  if line.length ≤ 1 then .skip
  else
    let g := split_at_sep ',' line
    match g.2 with
    | none => .skip
    | some afterGene =>
      let s := split_at_sep ',' afterGene
      let gene := trim_whitespace g.1
      let seqLead := s.1.dropWhile (fun c => c_isspace c)
      let seqField := seqLead.takeWhile (fun c => !(c = ',' || c = '\r' || c = '\n'))
      if seqField.length = 0 then .skip
      else if 30 < seqField.length then .badLength
      else .guide ⟨gene.take 255, seqField.map normalize_base⟩

/-- `strtok_r(buffer, "|", ...)` token stream (used by
`parse_fasta_header`, search.c): the maximal nonempty runs of
non-separator bytes, in order; consecutive separators yield no empty
token.  `acc` holds the bytes of the current token in reverse. -/
def strtok_aux (sep : Char) : List Char → List Char → List (List Char)
  | [], acc => if acc = [] then [] else [acc.reverse]
  | c :: rest, acc =>
    if c = sep then
      if acc = [] then strtok_aux sep rest []
      else acc.reverse :: strtok_aux sep rest []
    else strtok_aux sep rest (c :: acc)

/-- All `strtok_r` tokens of a byte string for a one-byte separator set. -/
def strtok_tokens (sep : Char) (l : List Char) : List (List Char) :=
  strtok_aux sep l []

/-- `parse_fasta_header` (search.c): strip the leading `>`, strip
trailing newline bytes, split into `strtok_r` tokens on `|` (which skips
empty fields), and take the trimmed token at token-index 0 as the
transcript id and the trimmed token at token-index 5 as the gene symbol,
defaulting to "UNKNOWN" / "Unknown" when absent. -/
def parse_fasta_header (line : List Char) : List Char × List Char :=
  let body := if line.head? = some '>' then line.tail else line
  let body2 := (body.reverse.dropWhile (fun c => c = '\n' || c = '\r')).reverse
  let toks := strtok_tokens '|' body2
  let tid := match toks[0]? with
    | some t => trim_whitespace t
    | none => "UNKNOWN".toList
  let gsym := match toks[5]? with
    | some t => trim_whitespace t
    | none => "Unknown".toList
  (tid, gsym)

/-- The name of the environment variable read by `parse_thread_override`
(search.c line 243). -/
def thread_override_env_name : List Char := "TIGER_OFFTARGET_THREADS".toList

/-- `strtol(s, &endptr, 10)` as used by `parse_thread_override`
(search.c): skip leading whitespace, consume an optional sign, then a
maximal digit run; `none` models `endptr == s` (no digits consumed).
The C `long`-overflow saturation to `LONG_MAX`/`LONG_MIN` is omitted: it
changes neither the sign test nor the comparison against 1024. -/
def strtol10 (s : List Char) : Option ℤ :=
  let s1 := s.dropWhile (fun c => c_isspace c)
  let signed : ℤ × List Char :=
    if s1.head? = some '+' then (1, s1.tail)
    else if s1.head? = some '-' then (-1, s1.tail)
    else (1, s1)
  let ds := signed.2.takeWhile (fun c => c.isDigit)
  if ds = [] then none
  else some (signed.1 * (ds.foldl (fun a c => a * 10 + ((c.toNat : ℤ) - 48)) 0))

/-- `parse_thread_override` (search.c): returns 0 (no override) when the
variable is unset or empty, when `strtol` consumes no digits, or when the
value is not positive (the latter two with a warning); values above 1024
are clamped to 1024; otherwise the value itself is returned. -/
def parse_thread_override (env : Option (List Char)) : ℤ :=
  match env with
  | none => 0
  | some s =>
    if s = [] then 0
    else
      match strtol10 s with
      | none => 0
      | some v => if v ≤ 0 then 0 else if 1024 < v then 1024 else v

/-! ### Specification-side counting definitions -/

/-- Hamming distance between the window of `B` starting at `pos` and the
guide bytes `qs` (offset `k` deep into the comparison). -/
def ham_scan (B : List Char) (pos : ℕ) : List Char → ℕ → ℕ
  | [], _ => 0
  | q :: qs, k => (if refAt B (pos + k) ≠ q then 1 else 0) + ham_scan B pos qs (k + 1)

/-- Hamming distance between `B[pos .. pos + seq.length)` and `seq`. -/
def hammingAt (B : List Char) (seq : List Char) (pos : ℕ) : ℕ :=
  ham_scan B pos seq 0

/-- Matching equality count between the window at `pos` and `qs`. -/
def eq_scan (B : List Char) (pos : ℕ) : List Char → ℕ → ℕ
  | [], _ => 0
  | q :: qs, k => (if refAt B (pos + k) = q then 1 else 0) + eq_scan B pos qs (k + 1)

/-- Position `pos` carries a window of length `L` that lies entirely
inside record `i`: the record contains `pos`, and the window's end does
not pass the record's end. -/
def record_window (recs : List TranscriptInfo) (i pos L : ℕ) : Bool :=
  let t := recs.getD i default
  decide (t.start ≤ pos) && decide (pos < t.start + t.length)
    && decide (pos + L ≤ t.start + t.length)

/-- Some record contains `pos` together with the whole window of length
`L` starting there. -/
def window_in_record (recs : List TranscriptInfo) (pos L : ℕ) : Bool :=
  (List.range recs.length).any (fun i => record_window recs i pos L)

/-- The specification's per-position predicate for histogram bucket `k`:
the position is valid, its window lies inside the record containing it,
and the Hamming distance to the guide is exactly `k`. -/
def spec_counted (B : List Char) (V : List Bool) (recs : List TranscriptInfo)
    (seq : List Char) (k : ℕ) (pos : ℕ) : Bool :=
  V.getD pos false && window_in_record recs pos seq.length
    && decide (hammingAt B seq pos = k)

/-- The specification's histogram value: the number of reference-buffer
positions satisfying `spec_counted`. -/
def spec_count (B : List Char) (V : List Bool) (recs : List TranscriptInfo)
    (seq : List Char) (k : ℕ) : ℕ :=
  ((List.range B.length).filter (spec_counted B V recs seq k)).length

/-- The per-record histogram value: the number of valid positions whose
window lies inside record `i` with Hamming distance exactly `k`. -/
def per_record_count (B : List Char) (V : List Bool) (recs : List TranscriptInfo)
    (seq : List Char) (k : ℕ) (i : ℕ) : ℕ :=
  ((List.range B.length).filter (fun p =>
    V.getD p false && record_window recs i p seq.length
      && decide (hammingAt B seq p = k))).length

/-- The record cursor reached by the kernels at position `pos`: the
cursor-advance loop run from record index 0. -/
def record_cursor (recs : List TranscriptInfo) (pos : ℕ) : ℕ :=
  cursor_advance recs pos 0

/-- The per-guide effect of one kernel position, with the record cursor
expressed as a pure function of the position (proved below to agree with
the stateful fold of `process_group`). -/
def g_step_at (mm : List Char → List Char → ℕ → ℕ) (B : List Char) (V : List Bool)
    (recs : List TranscriptInfo) (pos : ℕ) (g : Guide) (acc : GuideResult) : GuideResult :=
  let idx := record_cursor recs pos
  let t := recs.getD idx default
  if V.getD pos false = false then acc
  else if pos < t.start then acc
  else if t.start + t.length ≤ pos then acc
  else guide_step mm B idx (t.start + t.length) pos g acc

/-- The scalar kernel's exact per-position counting predicate for bucket
`k`, phrased with the pure record cursor. -/
def scalar_counted (B : List Char) (V : List Bool) (recs : List TranscriptInfo)
    (seq : List Char) (k : ℕ) (pos : ℕ) : Bool :=
  let t := recs.getD (record_cursor recs pos) default
  V.getD pos false && decide (t.start ≤ pos) && decide (pos < t.start + t.length)
    && decide (pos + seq.length ≤ t.start + t.length)
    && decide (hammingAt B seq pos = k)

/-- The effect of one kernel position on the whole guide group, with the
record cursor expressed as a pure function of the position. -/
def step_at (mm : List Char → List Char → ℕ → ℕ) (B : List Char) (V : List Bool)
    (recs : List TranscriptInfo) (guides : List Guide) (pos : ℕ)
    (accs : List GuideResult) : List GuideResult :=
  let idx := record_cursor recs pos
  let t := recs.getD idx default
  if V.getD pos false = false then accs
  else if pos < t.start then accs
  else if t.start + t.length ≤ pos then accs
  else List.zipWith (guide_step mm B idx (t.start + t.length) pos) guides accs

/-- The kernel's record-cursor value entering the iteration at position
`n` (before its own cursor advance). -/
def cursor_after (recs : List TranscriptInfo) : ℕ → ℕ
  | 0 => 0
  | n + 1 => record_cursor recs n

/-- Length of the leading run of non-sentinel bytes. -/
def nonsentinel_run (l : List Char) : ℕ :=
  (l.takeWhile (fun c => decide (¬c = 'X'))).length

/-- Decimal value of a digit string, the reference reading of the digit
run consumed by `strtol`. -/
def decimal_value (ds : List Char) : ℤ :=
  ds.foldl (fun a c => a * 10 + ((c.toNat : ℤ) - 48)) 0

/-! ### Concrete inputs taken from the specification's scenarios -/

/-- Scenario C reference buffer: record bases `AAAAACAAATAA` followed by
the `PAD_WIDTH = 32` trailing sentinel bytes appended by the loader. -/
def scenC_buf : List Char := "AAAAACAAATAA".toList ++ List.replicate 32 'X'

/-- Scenario C descriptor array: one record of 12 bases at offset 0. -/
def scenC_recs : List TranscriptInfo := [⟨0, 12, "r1".toList, "G1".toList⟩]

/-- Scenario C guide set: the single guide `AAAA`. -/
def scenC_guides : List Guide := [⟨"g1".toList, "AAAA".toList⟩]

/-- Scenario C validity mask for maximum guide length 4. -/
def scenC_valid : List Bool := compute_valid_positions scenC_buf 4

/-- Scenario C search limit, `reference.length - (PAD_WIDTH - 1)`. -/
def scenC_limit : ℕ := scenC_buf.length - 31

/-- Scenario B reference buffer: records `ACGT` and `ACGTACGT`, each
followed by the 32-byte sentinel run. -/
def scenB_buf : List Char :=
  "ACGT".toList ++ List.replicate 32 'X' ++ "ACGTACGT".toList ++ List.replicate 32 'X'

/-- Scenario B descriptor array: 4 bases at offset 0, 8 bases at offset
36. -/
def scenB_recs : List TranscriptInfo :=
  [⟨0, 4, "r1".toList, "GA".toList⟩, ⟨36, 8, "r2".toList, "GB".toList⟩]

/-- Scenario B guide set: the single guide `ACGT`. -/
def scenB_guides : List Guide := [⟨"g1".toList, "ACGT".toList⟩]

/-- Scenario B validity mask for maximum guide length 4. -/
def scenB_valid : List Bool := compute_valid_positions scenB_buf 4

/-- Scenario B search limit. -/
def scenB_limit : ℕ := scenB_buf.length - 31

/-! ### Cursor-advance lemmas -/

theorem cursor_go_stop (recs : List TranscriptInfo) (pos idx : ℕ)
    (h : recs.length ≤ idx + 1) : ∀ fuel, cursor_advance_go recs pos fuel idx = idx := by
  intro fuel
  cases fuel with
  | zero => rfl
  | succ fuel =>
    simp only [cursor_advance_go]
    rw [if_neg]
    rintro ⟨h1, -⟩
    omega

theorem cursor_go_fuel_eq (recs : List TranscriptInfo) (pos : ℕ) :
    ∀ f1 f2 idx, recs.length ≤ idx + f1 + 1 → recs.length ≤ idx + f2 + 1 →
      cursor_advance_go recs pos f1 idx = cursor_advance_go recs pos f2 idx := by
  intro f1
  induction f1 with
  | zero =>
    intro f2 idx h1 _
    exact (cursor_go_stop recs pos idx (by omega) f2).symm
  | succ f1 ih =>
    intro f2 idx h1 h2
    by_cases hc : idx + 1 < recs.length ∧ (recs.getD (idx + 1) default).start ≤ pos
    · cases f2 with
      | zero => omega
      | succ f2 =>
        simp only [cursor_advance_go, if_pos hc]
        exact ih f2 (idx + 1) (by omega) (by omega)
    · cases f2 with
      | zero => simp only [cursor_advance_go, if_neg hc]
      | succ f2 => simp only [cursor_advance_go, if_neg hc]

theorem cursor_advance_eq_go (recs : List TranscriptInfo) (pos idx fuel : ℕ)
    (h : recs.length ≤ idx + fuel + 1) :
    cursor_advance recs pos idx = cursor_advance_go recs pos fuel idx :=
  cursor_go_fuel_eq recs pos recs.length fuel idx (by omega) h

theorem cursor_go_ge (recs : List TranscriptInfo) (pos : ℕ) :
    ∀ fuel idx, idx ≤ cursor_advance_go recs pos fuel idx := by
  intro fuel
  induction fuel with
  | zero => intro idx; exact Nat.le_refl idx
  | succ fuel ih =>
    intro idx
    simp only [cursor_advance_go]
    split
    · exact Nat.le_trans (Nat.le_succ idx) (ih (idx + 1))
    · exact Nat.le_refl idx

theorem cursor_advance_ge (recs : List TranscriptInfo) (pos idx : ℕ) :
    idx ≤ cursor_advance recs pos idx :=
  cursor_go_ge recs pos recs.length idx

theorem cursor_go_lt_length (recs : List TranscriptInfo) (pos : ℕ) :
    ∀ fuel idx, idx < recs.length → cursor_advance_go recs pos fuel idx < recs.length := by
  intro fuel
  induction fuel with
  | zero => intro idx h; exact h
  | succ fuel ih =>
    intro idx h
    simp only [cursor_advance_go]
    split
    · next hc => exact ih (idx + 1) hc.1
    · exact h

theorem cursor_advance_lt_length (recs : List TranscriptInfo) (pos idx : ℕ)
    (h : idx < recs.length) : cursor_advance recs pos idx < recs.length :=
  cursor_go_lt_length recs pos recs.length idx h

theorem cursor_advance_absorb (recs : List TranscriptInfo) (pos posb : ℕ) (hpp : pos ≤ posb) :
    ∀ fuel idx, recs.length ≤ idx + fuel + 1 →
      cursor_advance recs posb (cursor_advance_go recs pos fuel idx)
        = cursor_advance recs posb idx := by
  intro fuel
  induction fuel with
  | zero => intro idx _; rfl
  | succ fuel ih =>
    intro idx hsuf
    by_cases hc : idx + 1 < recs.length ∧ (recs.getD (idx + 1) default).start ≤ pos
    · simp only [cursor_advance_go, if_pos hc]
      rw [ih (idx + 1) (by omega)]
      have hcb : idx + 1 < recs.length ∧ (recs.getD (idx + 1) default).start ≤ posb :=
        ⟨hc.1, Nat.le_trans hc.2 hpp⟩
      obtain ⟨m, hm⟩ : ∃ m, recs.length = m + 1 := ⟨recs.length - 1, by omega⟩
      have h1 : cursor_advance recs posb idx = cursor_advance_go recs posb (m + 1) idx := by
        rw [cursor_advance, hm]
      rw [h1]
      simp only [cursor_advance_go, if_pos hcb]
      exact cursor_advance_eq_go recs posb (idx + 1) m (by omega)
    · simp only [cursor_advance_go, if_neg hc]

theorem cursor_advance_chain (recs : List TranscriptInfo) (pos posb idx : ℕ) (hpp : pos ≤ posb) :
    cursor_advance recs posb (cursor_advance recs pos idx) = cursor_advance recs posb idx :=
  cursor_advance_absorb recs pos posb hpp recs.length idx (by omega)

theorem record_cursor_lt_length (recs : List TranscriptInfo) (pos : ℕ) (h : recs ≠ []) :
    record_cursor recs pos < recs.length :=
  cursor_advance_lt_length recs pos 0 (List.length_pos.mpr h)

theorem record_cursor_mono (recs : List TranscriptInfo) (pos posb : ℕ) (hpp : pos ≤ posb) :
    record_cursor recs pos ≤ record_cursor recs posb := by
  have h := cursor_advance_chain recs pos posb 0 hpp
  calc record_cursor recs pos
      ≤ cursor_advance recs posb (cursor_advance recs pos 0) :=
        cursor_advance_ge recs posb (cursor_advance recs pos 0)
    _ = record_cursor recs posb := h

theorem cursor_go_reach (recs : List TranscriptInfo) (pos i : ℕ)
    (hi : i < recs.length)
    (hstarts : ∀ j, 1 ≤ j → j ≤ i → (recs.getD j default).start ≤ pos) :
    ∀ fuel idx, recs.length ≤ idx + fuel + 1 → idx ≤ i →
      i ≤ cursor_advance_go recs pos fuel idx := by
  intro fuel
  induction fuel with
  | zero => intro idx hsuf hle; simp only [cursor_advance_go]; omega
  | succ fuel ih =>
    intro idx hsuf hle
    rcases Nat.eq_or_lt_of_le hle with heq | hlt
    · exact heq ▸ cursor_go_ge recs pos (fuel + 1) idx
    · have hc : idx + 1 < recs.length ∧ (recs.getD (idx + 1) default).start ≤ pos :=
        ⟨by omega, hstarts (idx + 1) (by omega) (by omega)⟩
      simp only [cursor_advance_go, if_pos hc]
      exact ih (idx + 1) (by omega) (by omega)

theorem cursor_go_cap (recs : List TranscriptInfo) (pos b : ℕ)
    (hb : b + 1 < recs.length → pos < (recs.getD (b + 1) default).start) :
    ∀ fuel idx, idx ≤ b → cursor_advance_go recs pos fuel idx ≤ b := by
  intro fuel
  induction fuel with
  | zero => intro idx hle; exact hle
  | succ fuel ih =>
    intro idx hle
    by_cases hc : idx + 1 < recs.length ∧ (recs.getD (idx + 1) default).start ≤ pos
    · simp only [cursor_advance_go, if_pos hc]
      rcases Nat.eq_or_lt_of_le hle with heq | hlt
      · subst heq
        have := hb hc.1
        omega
      · exact ih (idx + 1) (by omega)
    · simp only [cursor_advance_go, if_neg hc]
      exact hle

/-- With strictly separated records, starts are monotone. -/
theorem starts_mono (recs : List TranscriptInfo)
    (hsep : ∀ i, i < recs.length - 1 →
      (recs.getD i default).start + (recs.getD i default).length
        < (recs.getD (i + 1) default).start) :
    ∀ i j, i ≤ j → j < recs.length →
      (recs.getD i default).start ≤ (recs.getD j default).start := by
  intro i j hij
  induction j, hij using Nat.le_induction with
  | base => intro _; exact Nat.le_refl _
  | succ j hij ih =>
    intro hj1
    have h1 := ih (by omega)
    have h2 := hsep j (by omega)
    omega

/-- With strictly separated records, the record cursor lands exactly on
the record containing the position. -/
theorem record_cursor_eq_of_mem (recs : List TranscriptInfo) (pos i : ℕ)
    (hsep : ∀ i, i < recs.length - 1 →
      (recs.getD i default).start + (recs.getD i default).length
        < (recs.getD (i + 1) default).start)
    (hi : i < recs.length)
    (hlo : (recs.getD i default).start ≤ pos)
    (hhi : pos < (recs.getD i default).start + (recs.getD i default).length) :
    record_cursor recs pos = i := by
  have hreach : i ≤ record_cursor recs pos := by
    apply cursor_go_reach recs pos i hi _ recs.length 0 (by omega) (by omega)
    intro j h1 h2
    exact Nat.le_trans (starts_mono recs hsep j i h2 hi) hlo
  have hcap : record_cursor recs pos ≤ i := by
    apply cursor_go_cap recs pos i _ recs.length 0 (by omega)
    intro hi1
    have := hsep i (by omega)
    omega
  omega

/-! ### Reduction of the kernel scaffold to a per-position, per-guide fold -/

theorem cursor_after_advance (recs : List TranscriptInfo) (n : ℕ) :
    cursor_advance recs n (cursor_after recs n) = record_cursor recs n := by
  cases n with
  | zero => rfl
  | succ m => exact cursor_advance_chain recs m (m + 1) 0 (by omega)

theorem foldl_range_succ {β : Type} (f : β → ℕ → β) (z : β) (n : ℕ) :
    (List.range (n + 1)).foldl f z = f ((List.range n).foldl f z) n := by
  rw [List.range_succ, List.foldl_append, List.foldl_cons, List.foldl_nil]

theorem pos_step_eq_step_at (mm : List Char → List Char → ℕ → ℕ) (B : List Char)
    (V : List Bool) (recs : List TranscriptInfo) (guides : List Guide)
    (pos idx0 : ℕ) (accs : List GuideResult)
    (h : cursor_advance recs pos idx0 = record_cursor recs pos) :
    pos_step mm B V recs guides (idx0, accs) pos
      = (record_cursor recs pos, step_at mm B V recs guides pos accs) := by
  simp only [pos_step, step_at, h]
  split_ifs <;> rfl

theorem process_group_fold (mm : List Char → List Char → ℕ → ℕ) (B : List Char)
    (V : List Bool) (recs : List TranscriptInfo) (guides : List Guide) :
    ∀ (n : ℕ) (accs0 : List GuideResult),
      (List.range n).foldl (pos_step mm B V recs guides) (0, accs0)
        = (cursor_after recs n,
            (List.range n).foldl (fun accs pos => step_at mm B V recs guides pos accs) accs0) := by
  intro n
  induction n with
  | zero => intro accs0; rfl
  | succ n ih =>
    intro accs0
    rw [foldl_range_succ, ih, foldl_range_succ]
    exact pos_step_eq_step_at mm B V recs guides n (cursor_after recs n) _
      (cursor_after_advance recs n)

theorem step_at_length (mm : List Char → List Char → ℕ → ℕ) (B : List Char)
    (V : List Bool) (recs : List TranscriptInfo) (guides : List Guide) (pos : ℕ)
    (accs : List GuideResult) (hlen : accs.length = guides.length) :
    (step_at mm B V recs guides pos accs).length = guides.length := by
  simp only [step_at]
  split_ifs <;> simp [hlen]

theorem getD_zipWith {α β γ : Type} (f : α → β → γ) (l1 : List α) (l2 : List β)
    (j : ℕ) (d1 : α) (d2 : β) (d3 : γ) (h1 : j < l1.length) (h2 : j < l2.length) :
    (List.zipWith f l1 l2).getD j d3 = f (l1.getD j d1) (l2.getD j d2) := by
  simp [List.getD_eq_getElem?_getD, List.getElem?_zipWith, List.getElem?_eq_getElem, h1, h2]

theorem step_at_getD (mm : List Char → List Char → ℕ → ℕ) (B : List Char)
    (V : List Bool) (recs : List TranscriptInfo) (guides : List Guide) (pos : ℕ)
    (accs : List GuideResult) (j : ℕ) (hlen : accs.length = guides.length)
    (hj : j < guides.length) :
    (step_at mm B V recs guides pos accs).getD j default
      = g_step_at mm B V recs pos (guides.getD j default) (accs.getD j default) := by
  simp only [step_at, g_step_at]
  split_ifs <;> try rfl
  exact getD_zipWith _ guides accs j default default default hj (by omega)

theorem fold_step_at_getD (mm : List Char → List Char → ℕ → ℕ) (B : List Char)
    (V : List Bool) (recs : List TranscriptInfo) (guides : List Guide) (j : ℕ)
    (hj : j < guides.length) :
    ∀ (ps : List ℕ) (accs : List GuideResult), accs.length = guides.length →
      (ps.foldl (fun a p => step_at mm B V recs guides p a) accs).getD j default
        = ps.foldl (fun acc p => g_step_at mm B V recs p (guides.getD j default) acc)
            (accs.getD j default) := by
  intro ps
  induction ps with
  | nil => intro accs _; rfl
  | cons p ps ih =>
    intro accs hlen
    rw [List.foldl_cons, List.foldl_cons,
      ih (step_at mm B V recs guides p accs) (step_at_length mm B V recs guides p accs hlen),
      step_at_getD mm B V recs guides p accs j hlen hj]

/-- The `j`-th result of the kernel scaffold is the fold of the pure
per-guide step over the scanned positions. -/
theorem process_group_getD (mm : List Char → List Char → ℕ → ℕ) (B : List Char)
    (V : List Bool) (search_limit : ℕ) (recs : List TranscriptInfo)
    (guides : List Guide) (j : ℕ) (hj : j < guides.length) :
    (process_group mm B V search_limit recs guides).getD j default
      = (List.range search_limit).foldl
          (fun acc p => g_step_at mm B V recs p (guides.getD j default) acc) default := by
  unfold process_group
  rw [process_group_fold]
  have hlen : (guides.map fun _ => (default : GuideResult)).length = guides.length :=
    List.length_map _ _
  rw [fold_step_at_getD mm B V recs guides j hj (List.range search_limit) _ hlen]
  have hmap : (guides.map fun _ => (default : GuideResult)).getD j default = default := by
    rw [List.getD_eq_getElem?_getD, List.getElem?_map]
    rw [List.getElem?_eq_getElem hj]
    rfl
  rw [hmap]

/-! ### The scalar per-window loop computes the (capped) Hamming distance -/

theorem mismatch_scan_eq_min (B : List Char) (pos : ℕ) :
    ∀ (qs : List Char) (k m : ℕ), m ≤ 5 →
      mismatch_scan B pos qs k m = min (m + ham_scan B pos qs k) 6 := by
  intro qs
  induction qs with
  | nil => intro k m hm; simp only [mismatch_scan, ham_scan]; omega
  | cons q qs ih =>
    intro k m hm
    simp only [mismatch_scan, ham_scan]
    by_cases hd : refAt B (pos + k) ≠ q
    · rw [if_pos hd, if_pos hd]
      by_cases h6 : 5 < m + 1
      · rw [if_pos h6]
        have : 0 ≤ ham_scan B pos qs (k + 1) := Nat.zero_le _
        omega
      · rw [if_neg h6, ih (k + 1) (m + 1) (by omega)]
        omega
    · rw [if_neg hd, if_neg hd, ih (k + 1) m hm]
      omega

theorem scalar_mismatches_eq_min (B : List Char) (seq : List Char) (pos : ℕ) :
    scalar_mismatches B seq pos = min (hammingAt B seq pos) 6 := by
  have h := mismatch_scan_eq_min B pos seq 0 0 (by omega)
  simpa [scalar_mismatches, hammingAt] using h

/-! ### Counting lemma for the scalar per-guide step -/

theorem g_step_scalar_counts (B : List Char) (V : List Bool) (recs : List TranscriptInfo)
    (g : Guide) (k pos : ℕ) (hk : k ≤ 5) (acc : GuideResult) :
    (g_step_at scalar_mismatches B V recs pos g acc).counts k
      = acc.counts k
        + (if scalar_counted B V recs g.sequence k pos then 1 else 0) := by
  simp only [g_step_at, scalar_counted, guide_step]
  split_ifs with h1 h2 h3 h4 h5 <;>
    simp_all [scalar_mismatches_eq_min, Bool.and_eq_true, decide_eq_true_iff] <;>
    omega

theorem fold_scalar_counts (B : List Char) (V : List Bool) (recs : List TranscriptInfo)
    (g : Guide) (k : ℕ) (hk : k ≤ 5) :
    ∀ (ps : List ℕ) (acc : GuideResult),
      (ps.foldl (fun a p => g_step_at scalar_mismatches B V recs p g a) acc).counts k
        = acc.counts k + (ps.filter (scalar_counted B V recs g.sequence k)).length := by
  intro ps
  induction ps with
  | nil => intro acc; simp
  | cons p ps ih =>
    intro acc
    rw [List.foldl_cons, ih, g_step_scalar_counts B V recs g k p hk acc, List.filter_cons]
    by_cases hp : scalar_counted B V recs g.sequence k p
    · simp [hp]; omega
    · simp [hp]

/-! ### The cursor-based window test agrees with record containment -/

theorem scalar_counted_eq_spec (B : List Char) (V : List Bool) (recs : List TranscriptInfo)
    (seq : List Char) (k : ℕ) (hne : recs ≠ [])
    (hsep : ∀ i, i < recs.length - 1 →
      (recs.getD i default).start + (recs.getD i default).length
        < (recs.getD (i + 1) default).start)
    (pos : ℕ) :
    scalar_counted B V recs seq k pos = spec_counted B V recs seq k pos := by
  rw [Bool.eq_iff_iff]
  simp only [scalar_counted, spec_counted, window_in_record, record_window,
    List.any_eq_true, List.mem_range, Bool.and_eq_true, decide_eq_true_iff]
  constructor
  · rintro ⟨⟨⟨⟨hv, hlo⟩, hhi⟩, hwin⟩, hham⟩
    exact ⟨⟨hv, ⟨record_cursor recs pos, record_cursor_lt_length recs pos hne,
      ⟨⟨hlo, hhi⟩, hwin⟩⟩⟩, hham⟩
  · rintro ⟨⟨hv, ⟨i, hi, ⟨⟨hlo, hhi⟩, hwin⟩⟩⟩, hham⟩
    have hc := record_cursor_eq_of_mem recs pos i hsep hi hlo hhi
    rw [hc]
    exact ⟨⟨⟨⟨hv, hlo⟩, hhi⟩, hwin⟩, hham⟩

/-- Main histogram characterization of the scalar kernel, shared by the
claims about the histogram.  The hypotheses record what the loader
establishes: the descriptor array is nonempty and strictly separated in
buffer order, the scan limit does not pass the end of the buffer, and
every position at or beyond the scan limit (inside the trailing sentinel
run) is marked invalid. -/
theorem scalar_histogram_spec (B : List Char) (V : List Bool) (recs : List TranscriptInfo)
    (guides : List Guide) (search_limit : ℕ) (j k : ℕ)
    (hne : recs ≠ [])
    (hsep : ∀ i, i < recs.length - 1 →
      (recs.getD i default).start + (recs.getD i default).length
        < (recs.getD (i + 1) default).start)
    (hsl : search_limit ≤ B.length)
    (hV : ∀ p, p < B.length → search_limit ≤ p → V.getD p false = false)
    (hj : j < guides.length) (hk : k ≤ 5) :
    ((process_group_scalar B V search_limit recs guides).getD j default).counts k
      = spec_count B V recs (guides.getD j default).sequence k := by
  rw [process_group_scalar, process_group_getD scalar_mismatches B V search_limit recs guides j hj,
    fold_scalar_counts B V recs (guides.getD j default) k hk]
  have hdef : (default : GuideResult).counts k = 0 := rfl
  rw [hdef, Nat.zero_add]
  rw [List.filter_congr (fun p _ =>
    scalar_counted_eq_spec B V recs (guides.getD j default).sequence k hne hsep p)]
  have hsplit : B.length = search_limit + (B.length - search_limit) := by omega
  rw [spec_count, hsplit, List.range_add, List.filter_append, List.length_append]
  have hnil : (((List.range (B.length - search_limit)).map (search_limit + ·)).filter
      (spec_counted B V recs (guides.getD j default).sequence k)) = [] := by
    rw [List.filter_eq_nil_iff]
    intro a ha
    rcases List.mem_map.mp ha with ⟨x, hx, rfl⟩
    have hxr := List.mem_range.mp hx
    have hVa := hV (search_limit + x) (by omega) (by omega)
    rw [List.getD_eq_getElem?_getD] at hVa
    simp [spec_counted, hVa]
  rw [hnil]
  rfl

/-! ### The AVX2 per-window computation equals the Hamming distance -/

theorem ham_add_eq_scan (B : List Char) (pos : ℕ) :
    ∀ (qs : List Char) (k : ℕ),
      ham_scan B pos qs k + eq_scan B pos qs k = qs.length := by
  intro qs
  induction qs with
  | nil => intro k; rfl
  | cons q qs ih =>
    intro k
    simp only [ham_scan, eq_scan, List.length_cons]
    by_cases hd : refAt B (pos + k) = q
    · rw [if_neg (by simp [hd]), if_pos hd]
      have := ih (k + 1)
      omega
    · rw [if_pos hd, if_neg hd]
      have := ih (k + 1)
      omega

theorem ham_scan_le_length (B : List Char) (pos : ℕ) (qs : List Char) (k : ℕ) :
    ham_scan B pos qs k ≤ qs.length := by
  have := ham_add_eq_scan B pos qs k
  omega

theorem eq_scan_eq_filter (B : List Char) (pos : ℕ) :
    ∀ (qs : List Char) (k : ℕ),
      eq_scan B pos qs k
        = ((List.range qs.length).filter
            (fun j => decide (refAt B (pos + k + j) = qs.getD j 'X'))).length := by
  intro qs
  induction qs with
  | nil => intro k; rfl
  | cons q qs ih =>
    intro k
    simp only [eq_scan, List.length_cons]
    rw [List.range_succ_eq_map, List.filter_cons, List.filter_map]
    have hcomp : ((fun j => decide (refAt B (pos + k + j) = (q :: qs).getD j 'X')) ∘ Nat.succ)
        = (fun j => decide (refAt B (pos + (k + 1) + j) = qs.getD j 'X')) := by
      funext j
      have hx : pos + k + Nat.succ j = pos + (k + 1) + j := by omega
      simp only [Function.comp_apply, hx, List.getD_cons_succ]
    rw [hcomp]
    simp only [Nat.add_zero, List.getD_cons_zero, decide_eq_true_eq]
    by_cases h0 : refAt B (pos + k) = q
    · rw [if_pos h0, if_pos h0, ih (k + 1)]
      simp only [List.length_cons, List.length_map]
      omega
    · rw [if_neg h0, if_neg h0, ih (k + 1)]
      simp only [List.length_map]
      omega

theorem avx2_window_matches_eq (B : List Char) (seq : List Char) (pos : ℕ)
    (h30 : seq.length ≤ 30) :
    avx2_window_matches B seq pos = eq_scan B pos seq 0 := by
  have hmask : mask_for_length seq.length = 2 ^ seq.length - 1 := by
    rw [mask_for_length, if_neg (by omega)]
  rw [avx2_window_matches, hmask]
  have hpred : ∀ j ∈ List.range 32,
      (decide (refAt B (pos + j) = padded_query seq j)
          && (2 ^ seq.length - 1).testBit j)
        = (decide (refAt B (pos + j) = padded_query seq j) && decide (j < seq.length)) := by
    intro j _
    rw [Nat.testBit_two_pow_sub_one]
  rw [List.filter_congr hpred]
  have h32 : 32 = seq.length + (32 - seq.length) := by omega
  rw [h32, List.range_add, List.filter_append, List.length_append]
  have hlow : ∀ j ∈ List.range seq.length,
      (decide (refAt B (pos + j) = padded_query seq j) && decide (j < seq.length))
        = (fun j => decide (refAt B (pos + 0 + j) = seq.getD j 'X')) j := by
    intro j hj
    have hjlt := List.mem_range.mp hj
    simp [padded_query, hjlt, Nat.zero_add]
  rw [List.filter_congr hlow]
  have hhigh : (((List.range (32 - seq.length)).map (seq.length + ·)).filter
      (fun j => decide (refAt B (pos + j) = padded_query seq j) && decide (j < seq.length)))
      = [] := by
    rw [List.filter_eq_nil_iff]
    intro a ha
    rcases List.mem_map.mp ha with ⟨x, _, rfl⟩
    simp
  rw [hhigh, eq_scan_eq_filter B pos seq 0]
  rfl

theorem avx2_mismatches_eq_ham (B : List Char) (seq : List Char) (pos : ℕ)
    (h30 : seq.length ≤ 30) :
    avx2_mismatches B seq pos = hammingAt B seq pos := by
  rw [avx2_mismatches, avx2_window_matches_eq B seq pos h30, hammingAt]
  have := ham_add_eq_scan B pos seq 0
  omega

/-! ### Backend agreement -/

theorem guide_step_backend_eq (B : List Char) (tIdx tEnd pos : ℕ) (g : Guide)
    (h30 : g.sequence.length ≤ 30) (acc : GuideResult) :
    guide_step avx2_mismatches B tIdx tEnd pos g acc
      = guide_step scalar_mismatches B tIdx tEnd pos g acc := by
  have hA := avx2_mismatches_eq_ham B g.sequence pos h30
  have hS := scalar_mismatches_eq_min B g.sequence pos
  simp only [guide_step, hA, hS]
  by_cases h5 : hammingAt B g.sequence pos ≤ 5
  · have hmin : min (hammingAt B g.sequence pos) 6 = hammingAt B g.sequence pos := by omega
    rw [hmin]
  · have hmin : min (hammingAt B g.sequence pos) 6 = 6 := by omega
    rw [hmin, if_neg h5, if_neg (by omega : ¬(6 : ℕ) ≤ 5)]

theorem zipWith_congr_mem {α β γ : Type} (f g : α → β → γ) :
    ∀ (l1 : List α) (l2 : List β), (∀ a ∈ l1, ∀ b, f a b = g a b) →
      List.zipWith f l1 l2 = List.zipWith g l1 l2 := by
  intro l1
  induction l1 with
  | nil => intro l2 _; rfl
  | cons a l1 ih =>
    intro l2 h
    cases l2 with
    | nil => rfl
    | cons b l2 =>
      simp only [List.zipWith_cons_cons]
      rw [h a (by simp) b, ih l2 (fun x hx b2 => h x (by simp [hx]) b2)]

theorem pos_step_backend_eq (B : List Char) (V : List Bool) (recs : List TranscriptInfo)
    (guides : List Guide) (h30 : ∀ g ∈ guides, g.sequence.length ≤ 30)
    (st : ℕ × List GuideResult) (pos : ℕ) :
    pos_step avx2_mismatches B V recs guides st pos
      = pos_step scalar_mismatches B V recs guides st pos := by
  simp only [pos_step]
  split_ifs <;> try rfl
  rw [zipWith_congr_mem _ _ guides st.2
    (fun g hg acc => guide_step_backend_eq B _ _ pos g (h30 g hg) acc)]

/-- C2: for every reference buffer, validity mask, record-descriptor
array, and guide group (each guide of length at most
`MAX_GUIDE_LEN = 30`, as `load_guides` guarantees for every stored
guide), the AVX2 backend and the scalar backend produce identical
results: equal histograms and equal, element-for-element, `mm0_records`
lists for every guide of the group. -/
theorem c2_backends_agree (B : List Char) (V : List Bool) (search_limit : ℕ)
    (recs : List TranscriptInfo) (guides : List Guide)
    (h30 : ∀ g ∈ guides, g.sequence.length ≤ 30) :
    process_group_avx2 B V search_limit recs guides
      = process_group_scalar B V search_limit recs guides := by
  rw [process_group_avx2, process_group_scalar, process_group, process_group]
  have hfold : ∀ (ps : List ℕ) (st : ℕ × List GuideResult),
      ps.foldl (pos_step avx2_mismatches B V recs guides) st
        = ps.foldl (pos_step scalar_mismatches B V recs guides) st := by
    intro ps
    induction ps with
    | nil => intro st; rfl
    | cons p ps ih =>
      intro st
      rw [List.foldl_cons, List.foldl_cons,
        pos_step_backend_eq B V recs guides h30 st p, ih]
  rw [hfold]

/-- C1: for every guide in the group and every mismatch count k ≤ 5, the
scalar kernel's histogram cell `counts[k]` equals the number of
reference-buffer positions `p` with `V[p] = 1` whose window
`[p, p + L_guide)` lies entirely inside the record containing `p` and
whose Hamming distance to the guide sequence is exactly `k`; windows with
Hamming distance above 5 are counted in no cell (every cell counts an
exact-distance set).  The hypotheses record what the loader establishes:
a nonempty, strictly separated descriptor array, a scan limit inside the
buffer, and a validity mask that is 0 at and beyond the scan limit. -/
theorem c1_scalar_histogram (B : List Char) (V : List Bool) (recs : List TranscriptInfo)
    (guides : List Guide) (search_limit : ℕ) (j k : ℕ)
    (hne : recs ≠ [])
    (hsep : ∀ i, i < recs.length - 1 →
      (recs.getD i default).start + (recs.getD i default).length
        < (recs.getD (i + 1) default).start)
    (hsl : search_limit ≤ B.length)
    (hV : ∀ p, p < B.length → search_limit ≤ p → V.getD p false = false)
    (hj : j < guides.length) (hk : k ≤ 5) :
    ((process_group_scalar B V search_limit recs guides).getD j default).counts k
      = spec_count B V recs (guides.getD j default).sequence k :=
  scalar_histogram_spec B V recs guides search_limit j k hne hsep hsl hV hj hk

/-! ### Partition of the histogram over records -/

theorem record_window_unique (recs : List TranscriptInfo)
    (hsep : ∀ i, i < recs.length - 1 →
      (recs.getD i default).start + (recs.getD i default).length
        < (recs.getD (i + 1) default).start)
    (p L : ℕ) :
    ∀ i j, i < recs.length → j < recs.length →
      record_window recs i p L = true → record_window recs j p L = true → i = j := by
  have key : ∀ a b, a < b → b < recs.length →
      record_window recs a p L = true → record_window recs b p L = true → False := by
    intro a b hab hb hwa hwb
    simp only [record_window, Bool.and_eq_true, decide_eq_true_iff] at hwa hwb
    have h1 : (recs.getD (a + 1) default).start ≤ (recs.getD b default).start :=
      starts_mono recs hsep (a + 1) b (by omega) hb
    have h2 := hsep a (by omega)
    omega
  intro i j hi hj hwi hwj
  rcases Nat.lt_trichotomy i j with h | h | h
  · exact absurd (key i j h hj hwi hwj) (fun f => f)
  · exact h
  · exact absurd (key j i h hi hwj hwi) (fun f => f)

theorem sum_ite_unique (s : Finset ℕ) (Q : ℕ → Prop) [DecidablePred Q]
    (huniq : ∀ i ∈ s, ∀ j ∈ s, Q i → Q j → i = j) :
    (∑ i ∈ s, if Q i then (1 : ℕ) else 0) = if ∃ i ∈ s, Q i then 1 else 0 := by
  rw [Finset.sum_boole, Nat.cast_id]
  by_cases hex : ∃ i ∈ s, Q i
  · rcases hex with ⟨i, hi, hQ⟩
    rw [if_pos ⟨i, hi, hQ⟩, Finset.card_eq_one]
    refine ⟨i, Finset.eq_singleton_iff_unique_mem.mpr ⟨Finset.mem_filter.mpr ⟨hi, hQ⟩, ?_⟩⟩
    intro j hj
    exact huniq j (Finset.mem_filter.mp hj).1 i hi (Finset.mem_filter.mp hj).2 hQ
  · rw [if_neg hex, Finset.card_eq_zero, Finset.filter_eq_empty_iff]
    intro i hi hQ
    exact hex ⟨i, hi, hQ⟩

theorem sum_per_record_filter (B : List Char) (V : List Bool) (recs : List TranscriptInfo)
    (seq : List Char) (k : ℕ)
    (hsep : ∀ i, i < recs.length - 1 →
      (recs.getD i default).start + (recs.getD i default).length
        < (recs.getD (i + 1) default).start) :
    ∀ l : List ℕ,
      (∑ i ∈ Finset.range recs.length,
        (l.filter (fun p => V.getD p false && record_window recs i p seq.length
          && decide (hammingAt B seq p = k))).length)
        = (l.filter (spec_counted B V recs seq k)).length := by
  intro l
  induction l with
  | nil => simp
  | cons p l ih =>
    have hstep : ∀ i ∈ Finset.range recs.length,
        ((p :: l).filter (fun p => V.getD p false && record_window recs i p seq.length
          && decide (hammingAt B seq p = k))).length
          = (if (V.getD p false && record_window recs i p seq.length
              && decide (hammingAt B seq p = k)) = true then 1 else 0)
            + (l.filter (fun p => V.getD p false && record_window recs i p seq.length
              && decide (hammingAt B seq p = k))).length := by
      intro i _
      rw [List.filter_cons]
      by_cases hp : (V.getD p false && record_window recs i p seq.length
          && decide (hammingAt B seq p = k)) = true
      · rw [if_pos hp, if_pos hp, List.length_cons]
        omega
      · rw [if_neg hp, if_neg hp]
        omega
    rw [Finset.sum_congr rfl hstep, Finset.sum_add_distrib, ih]
    have hhead : (∑ i ∈ Finset.range recs.length,
        if (V.getD p false && record_window recs i p seq.length
          && decide (hammingAt B seq p = k)) = true then (1 : ℕ) else 0)
        = if spec_counted B V recs seq k p = true then 1 else 0 := by
      rw [sum_ite_unique (Finset.range recs.length) _ ?huniq]
      · congr 1
        simp only [eq_iff_iff, spec_counted, window_in_record, List.any_eq_true,
          List.mem_range, Bool.and_eq_true, Finset.mem_range]
        constructor
        · rintro ⟨i, hi, ⟨⟨hv, hw⟩, hham⟩⟩
          exact ⟨⟨hv, ⟨i, hi, hw⟩⟩, hham⟩
        · rintro ⟨⟨hv, ⟨i, hi, hw⟩⟩, hham⟩
          exact ⟨i, hi, ⟨⟨hv, hw⟩, hham⟩⟩
      case huniq =>
        intro i hi j hj hQi hQj
        simp only [Bool.and_eq_true] at hQi hQj
        exact record_window_unique recs hsep p seq.length i j
          (Finset.mem_range.mp hi) (Finset.mem_range.mp hj) hQi.1.2 hQj.1.2
    rw [hhead, List.filter_cons]
    by_cases hp : spec_counted B V recs seq k p = true
    · rw [if_pos hp, if_pos hp, List.length_cons]
      omega
    · rw [if_neg hp, if_neg hp]
      omega

theorem spec_count_eq_sum (B : List Char) (V : List Bool) (recs : List TranscriptInfo)
    (seq : List Char) (k : ℕ)
    (hsep : ∀ i, i < recs.length - 1 →
      (recs.getD i default).start + (recs.getD i default).length
        < (recs.getD (i + 1) default).start) :
    spec_count B V recs seq k
      = ∑ i ∈ Finset.range recs.length, per_record_count B V recs seq k i := by
  rw [spec_count, ← sum_per_record_filter B V recs seq k hsep (List.range B.length)]
  rfl

/-- C3: for every guide, no position whose window spans two records is
counted in any histogram cell: for every k ≤ 5 the scalar kernel's
`counts[k]` equals the sum over all records of the per-record counts
(positions whose window lies entirely inside that single record), which
is the claim's equivalent formulation.  Hypotheses as in the histogram
characterization. -/
theorem c3_record_partition (B : List Char) (V : List Bool) (recs : List TranscriptInfo)
    (guides : List Guide) (search_limit : ℕ) (j k : ℕ)
    (hne : recs ≠ [])
    (hsep : ∀ i, i < recs.length - 1 →
      (recs.getD i default).start + (recs.getD i default).length
        < (recs.getD (i + 1) default).start)
    (hsl : search_limit ≤ B.length)
    (hV : ∀ p, p < B.length → search_limit ≤ p → V.getD p false = false)
    (hj : j < guides.length) (hk : k ≤ 5) :
    ((process_group_scalar B V search_limit recs guides).getD j default).counts k
      = ∑ i ∈ Finset.range recs.length,
          per_record_count B V recs (guides.getD j default).sequence k i := by
  rw [scalar_histogram_spec B V recs guides search_limit j k hne hsep hsl hV hj hk,
    spec_count_eq_sum B V recs (guides.getD j default).sequence k hsep]

/-! ### The validity mask -/

theorem valid_scan_fst (m : ℕ) :
    ∀ l : List Char, (valid_scan m l).1 = nonsentinel_run l := by
  intro l
  induction l with
  | nil => rfl
  | cons c rest ih =>
    simp only [valid_scan, nonsentinel_run, List.takeWhile_cons]
    by_cases hc : c = 'X'
    · rw [if_pos hc, if_neg (by simp [hc])]
      rfl
    · rw [if_neg hc, if_pos (by simp [hc])]
      simp only [List.length_cons]
      rw [ih]
      rfl

theorem valid_scan_getD (m : ℕ) (hm : 1 ≤ m) :
    ∀ (l : List Char) (p : ℕ),
      ((valid_scan m l).2).getD p false
        = decide (m ≤ nonsentinel_run (l.drop p)) := by
  intro l
  induction l with
  | nil =>
    intro p
    have h0 : nonsentinel_run (List.drop p ([] : List Char)) = 0 := by
      simp [nonsentinel_run]
    have h1 : ((valid_scan m ([] : List Char)).2).getD p false = false := rfl
    rw [h0, h1]
    symm
    simp only [decide_eq_false_iff_not]
    omega
  | cons c rest ih =>
    intro p
    cases p with
    | zero =>
      simp only [valid_scan, List.drop_zero, nonsentinel_run, List.takeWhile_cons]
      by_cases hc : c = 'X'
      · rw [if_pos hc, if_neg (by simp [hc])]
        simp only [List.getD_cons_zero, List.length_nil]
        symm
        simp only [decide_eq_false_iff_not]
        omega
      · rw [if_neg hc, if_pos (by simp [hc])]
        simp only [List.getD_cons_zero, List.length_cons]
        rw [valid_scan_fst m rest]
        rfl
    | succ p =>
      simp only [valid_scan, List.drop_succ_cons]
      by_cases hc : c = 'X'
      · rw [if_pos hc]
        simp only [List.getD_cons_succ]
        exact ih p
      · rw [if_neg hc]
        simp only [List.getD_cons_succ]
        exact ih p

theorem le_nonsentinel_run_iff (m : ℕ) :
    ∀ l : List Char,
      m ≤ nonsentinel_run l ↔ (m ≤ l.length ∧ ∀ i, i < m → l.getD i 'X' ≠ 'X') := by
  induction m with
  | zero =>
    intro l
    constructor
    · intro _; exact ⟨Nat.zero_le _, fun i hi => absurd hi (by omega)⟩
    · intro _; exact Nat.zero_le _
  | succ m ih =>
    intro l
    cases l with
    | nil =>
      simp only [nonsentinel_run, List.takeWhile_nil, List.length_nil]
      constructor
      · intro h; omega
      · rintro ⟨h, -⟩; omega
    | cons c rest =>
      simp only [nonsentinel_run, List.takeWhile_cons, List.length_cons]
      by_cases hc : c = 'X'
      · rw [if_neg (by simp [hc])]
        simp only [List.length_nil]
        constructor
        · intro h; omega
        · rintro ⟨-, hall⟩
          have h0 := hall 0 (by omega)
          simp [hc] at h0
      · rw [if_pos (by simp [hc])]
        simp only [List.length_cons]
        have hrest := ih rest
        constructor
        · intro h
          have hm : m ≤ nonsentinel_run rest := by
            simpa [nonsentinel_run] using Nat.le_of_succ_le_succ h
          rcases hrest.mp hm with ⟨hlen, hall⟩
          refine ⟨by omega, ?_⟩
          intro i hi
          cases i with
          | zero => simpa using hc
          | succ i => simpa using hall i (by omega)
        · rintro ⟨hlen, hall⟩
          have hm : m ≤ nonsentinel_run rest := by
            apply hrest.mpr
            refine ⟨by omega, ?_⟩
            intro i hi
            simpa using hall (i + 1) (by omega)
          have : nonsentinel_run rest ≤ (rest.takeWhile (fun c => decide (¬c = 'X'))).length :=
            Nat.le_refl _
          simp only [nonsentinel_run] at hm
          omega

/-- C4: for every reference buffer B, every maximum guide length
L_max ≥ 1 (the program's maximum guide length is always in [1, 30]) and
every position p, the validity-mask builder marks p valid iff the L_max
bytes starting at p all lie inside the buffer and none of them is the
sentinel byte 'X'.  (Positions at or beyond the buffer end read as
invalid.) -/
theorem c4_validity_mask (B : List Char) (maxLength : ℕ) (p : ℕ) (hm : 1 ≤ maxLength) :
    (compute_valid_positions B maxLength).getD p false = true
      ↔ (p + maxLength ≤ B.length ∧ ∀ i, i < maxLength → B.getD (p + i) 'X' ≠ 'X') := by
  rw [compute_valid_positions, valid_scan_getD maxLength hm B p, decide_eq_true_eq,
    le_nonsentinel_run_iff maxLength (B.drop p)]
  have hlen : (B.drop p).length = B.length - p := List.length_drop p B
  have hget : ∀ i, (B.drop p).getD i 'X' = B.getD (p + i) 'X' := by
    intro i
    rw [List.getD_eq_getElem?_getD, List.getD_eq_getElem?_getD, List.getElem?_drop]
  rw [hlen]
  constructor
  · rintro ⟨h1, h2⟩
    refine ⟨by omega, ?_⟩
    intro i hi
    rw [← hget i]
    exact h2 i hi
  · rintro ⟨h1, h2⟩
    refine ⟨by omega, ?_⟩
    intro i hi
    rw [hget i]
    exact h2 i hi

/-! ### Shape invariants of the exact-hit record lists -/

theorem guide_step_mm0 (mm : List Char → List Char → ℕ → ℕ) (B : List Char)
    (tIdx tEnd pos : ℕ) (g : Guide) (acc : GuideResult) :
    (guide_step mm B tIdx tEnd pos g acc).mm0_transcripts
      = if tEnd < pos + g.sequence.length then acc.mm0_transcripts
        else if mm B g.sequence pos = 0 then hitlist_add acc.mm0_transcripts tIdx
        else acc.mm0_transcripts := by
  simp only [guide_step]
  split_ifs with h4 h5 hm0 hm0 <;> try rfl
  · exact absurd (hm0 ▸ h5 : ¬(0 : ℕ) ≤ 5) (by omega)

theorem guide_step_counts0 (mm : List Char → List Char → ℕ → ℕ) (B : List Char)
    (tIdx tEnd pos : ℕ) (g : Guide) (acc : GuideResult) :
    (guide_step mm B tIdx tEnd pos g acc).counts 0
      = if tEnd < pos + g.sequence.length then acc.counts 0
        else if mm B g.sequence pos = 0 then acc.counts 0 + 1
        else acc.counts 0 := by
  simp only [guide_step]
  split_ifs with h4 h5 hm0 hm0
  · rfl
  · show (if (0 : ℕ) = mm B g.sequence pos then acc.counts (mm B g.sequence pos) + 1
      else acc.counts 0) = acc.counts 0 + 1
    rw [if_pos hm0.symm, hm0]
  · show (if (0 : ℕ) = mm B g.sequence pos then acc.counts (mm B g.sequence pos) + 1
      else acc.counts 0) = acc.counts 0
    rw [if_neg (fun h => hm0 h.symm)]
  · exact absurd (hm0 ▸ h5 : ¬(0 : ℕ) ≤ 5) (by omega)
  · rfl

theorem fold_mm0_invariant (mm : List Char → List Char → ℕ → ℕ) (B : List Char)
    (V : List Bool) (recs : List TranscriptInfo) (g : Guide) :
    ∀ n : ℕ,
      List.Sorted (· < ·)
          ((List.range n).foldl (fun a p => g_step_at mm B V recs p g a)
            default).mm0_transcripts
        ∧ ((List.range n).foldl (fun a p => g_step_at mm B V recs p g a)
              default).mm0_transcripts.length
            ≤ ((List.range n).foldl (fun a p => g_step_at mm B V recs p g a)
                default).counts 0
        ∧ ∀ x ∈ ((List.range n).foldl (fun a p => g_step_at mm B V recs p g a)
              default).mm0_transcripts, x ≤ record_cursor recs n := by
  intro n
  induction n with
  | zero =>
    simp only [List.range_zero, List.foldl_nil]
    refine ⟨List.sorted_nil, Nat.le_refl 0, ?_⟩
    intro x hx
    exact absurd hx (List.not_mem_nil x)
  | succ n ih =>
    rw [foldl_range_succ]
    obtain ⟨hs, hlen, hbound⟩ := ih
    set acc := (List.range n).foldl (fun a p => g_step_at mm B V recs p g a) default with hacc
    have hmono : record_cursor recs n ≤ record_cursor recs (n + 1) :=
      record_cursor_mono recs n (n + 1) (by omega)
    have hskip : List.Sorted (· < ·) acc.mm0_transcripts
        ∧ acc.mm0_transcripts.length ≤ acc.counts 0
        ∧ ∀ x ∈ acc.mm0_transcripts, x ≤ record_cursor recs (n + 1) :=
      ⟨hs, hlen, fun x hx => Nat.le_trans (hbound x hx) hmono⟩
    simp only [g_step_at]
    split_ifs with h1 h2 h3
    · exact hskip
    · exact hskip
    · exact hskip
    · rw [guide_step_mm0, guide_step_counts0]
      split_ifs with h4 hm0
      · exact hskip
      · refine ⟨?_, ?_, ?_⟩
        · simp only [hitlist_add]
          split_ifs with hmem
          · exact hs
          · rw [List.Sorted, List.pairwise_append]
            refine ⟨hs, by simp, ?_⟩
            intro a ha b hb
            rcases List.mem_singleton.mp hb with rfl
            have hle := hbound a ha
            have hne : a ≠ record_cursor recs n := fun h => hmem (h ▸ ha)
            omega
        · simp only [hitlist_add]
          split_ifs with hmem
          · omega
          · simp only [List.length_append, List.length_singleton]
            omega
        · intro x hx
          simp only [hitlist_add] at hx
          split_ifs at hx with hmem
          · exact Nat.le_trans (hbound x hx) hmono
          · rcases List.mem_append.mp hx with hx | hx
            · exact Nat.le_trans (hbound x hx) hmono
            · rcases List.mem_singleton.mp hx with rfl
              exact hmono
      · exact hskip

theorem fold_step_at_length (mm : List Char → List Char → ℕ → ℕ) (B : List Char)
    (V : List Bool) (recs : List TranscriptInfo) (guides : List Guide) :
    ∀ (ps : List ℕ) (accs : List GuideResult), accs.length = guides.length →
      (ps.foldl (fun a p => step_at mm B V recs guides p a) accs).length
        = guides.length := by
  intro ps
  induction ps with
  | nil => intro accs h; exact h
  | cons p ps ih =>
    intro accs h
    rw [List.foldl_cons]
    exact ih _ (step_at_length mm B V recs guides p accs h)

theorem process_group_length (mm : List Char → List Char → ℕ → ℕ) (B : List Char)
    (V : List Bool) (search_limit : ℕ) (recs : List TranscriptInfo)
    (guides : List Guide) :
    (process_group mm B V search_limit recs guides).length = guides.length := by
  unfold process_group
  rw [process_group_fold]
  exact fold_step_at_length mm B V recs guides (List.range search_limit) _
    (List.length_map _ _)

theorem process_group_mm0_shape (mm : List Char → List Char → ℕ → ℕ) (B : List Char)
    (V : List Bool) (search_limit : ℕ) (recs : List TranscriptInfo)
    (guides : List Guide) (j : ℕ) :
    List.Sorted (· < ·)
        ((process_group mm B V search_limit recs guides).getD j default).mm0_transcripts
      ∧ ((process_group mm B V search_limit recs guides).getD j
            default).mm0_transcripts.Nodup
      ∧ ((process_group mm B V search_limit recs guides).getD j
            default).mm0_transcripts.length
          ≤ ((process_group mm B V search_limit recs guides).getD j default).counts 0 := by
  by_cases hj : j < guides.length
  · rw [process_group_getD mm B V search_limit recs guides j hj]
    obtain ⟨hs, hlen, -⟩ :=
      fold_mm0_invariant mm B V recs (guides.getD j default) search_limit
    exact ⟨hs, hs.nodup, hlen⟩
  · have hlen : (process_group mm B V search_limit recs guides).length ≤ j := by
      rw [process_group_length]
      omega
    have hd : (process_group mm B V search_limit recs guides).getD j default = default := by
      rw [List.getD_eq_getElem?_getD, List.getElem?_eq_none hlen]
      rfl
    rw [hd]
    exact ⟨List.sorted_nil, List.nodup_nil, Nat.le_refl 0⟩

/-- C8: for every guide, the `mm0_records` list produced by either
kernel has no duplicate record indices, is sorted in strictly ascending
record-index order, and is no longer than the exact-hit count
`counts[0]`. -/
theorem c8_mm0_records (B : List Char) (V : List Bool) (search_limit : ℕ)
    (recs : List TranscriptInfo) (guides : List Guide) (j : ℕ) :
    (List.Sorted (· < ·)
        ((process_group_scalar B V search_limit recs guides).getD j default).mm0_transcripts
      ∧ ((process_group_scalar B V search_limit recs guides).getD j
            default).mm0_transcripts.Nodup
      ∧ ((process_group_scalar B V search_limit recs guides).getD j
            default).mm0_transcripts.length
          ≤ ((process_group_scalar B V search_limit recs guides).getD j default).counts 0)
    ∧ (List.Sorted (· < ·)
        ((process_group_avx2 B V search_limit recs guides).getD j default).mm0_transcripts
      ∧ ((process_group_avx2 B V search_limit recs guides).getD j
            default).mm0_transcripts.Nodup
      ∧ ((process_group_avx2 B V search_limit recs guides).getD j
            default).mm0_transcripts.length
          ≤ ((process_group_avx2 B V search_limit recs guides).getD j default).counts 0) :=
  ⟨process_group_mm0_shape scalar_mismatches B V search_limit recs guides j,
    process_group_mm0_shape avx2_mismatches B V search_limit recs guides j⟩

/-! ### Guide-row parsing -/

theorem split_at_sep_append (sep : Char) (g rest : List Char) (hg : sep ∉ g) :
    split_at_sep sep (g ++ sep :: rest) = (g, some rest) := by
  induction g with
  | nil => simp [split_at_sep]
  | cons c g ih =>
    have hc : ¬c = sep := fun h => hg (h ▸ List.mem_cons_self c g)
    have hg2 : sep ∉ g := fun h => hg (List.mem_cons_of_mem c h)
    simp only [List.cons_append, split_at_sep, if_neg hc, List.append_eq, ih hg2]

theorem split_at_sep_no_sep (sep : Char) (l : List Char) (hl : sep ∉ l) :
    split_at_sep sep l = (l, none) := by
  induction l with
  | nil => rfl
  | cons c l ih =>
    have hc : ¬c = sep := fun h => hl (h ▸ List.mem_cons_self c l)
    have hl2 : sep ∉ l := fun h => hl (List.mem_cons_of_mem c h)
    simp only [split_at_sep, if_neg hc, ih hl2]

theorem takeWhile_all_append (p : Char → Bool) (l : List Char) (a : Char)
    (hl : ∀ x ∈ l, p x = true) (ha : p a = false) :
    (l ++ [a]).takeWhile p = l := by
  induction l with
  | nil => simp [List.takeWhile_cons, ha]
  | cons c l ih =>
    have hc : p c = true := hl c (List.mem_cons_self c l)
    simp only [List.cons_append, List.takeWhile_cons, hc, if_true]
    rw [ih (fun x hx => hl x (List.mem_cons_of_mem c hx))]

theorem seq_field_extract (s : List Char)
    (hs : ∀ c ∈ s, ¬(c = ',' ∨ c = '\r' ∨ c = '\n')) :
    ((s ++ ['\n']).dropWhile (fun c => c_isspace c)).takeWhile
        (fun c => !(c = ',' || c = '\r' || c = '\n'))
      = s.dropWhile (fun c => c_isspace c) := by
  induction s with
  | nil => rfl
  | cons c s ih =>
    by_cases hw : c_isspace c = true
    · simp only [List.cons_append, List.dropWhile_cons, hw, if_true]
      exact ih (fun x hx => hs x (List.mem_cons_of_mem c hx))
    · simp only [List.cons_append, List.dropWhile_cons, hw, if_false,
        Bool.false_eq_true]
      have hc := hs c (List.mem_cons_self c s)
      have hpc : (!(c = ',' || c = '\r' || c = '\n') : Bool) = true := by
        simp only [Bool.not_eq_true', Bool.or_eq_false_iff, decide_eq_false_iff_not]
        exact ⟨⟨fun h => hc (Or.inl h), fun h => hc (Or.inr (Or.inl h))⟩,
          fun h => hc (Or.inr (Or.inr h))⟩
      simp only [List.takeWhile_cons, hpc, if_true]
      rw [takeWhile_all_append]
      · intro x hx
        have hcx := hs x (List.mem_cons_of_mem c hx)
        simp only [Bool.not_eq_true', Bool.or_eq_false_iff, decide_eq_false_iff_not]
        exact ⟨⟨fun h => hcx (Or.inl h), fun h => hcx (Or.inr (Or.inl h))⟩,
          fun h => hcx (Or.inr (Or.inr h))⟩
      · decide

/-- Evaluation of one `load_guides` row whose two fields are explicitly
given: the gene field is trimmed on both sides (then truncated to 255
bytes), while the sequence field only has its leading whitespace removed
before byte-wise normalization. -/
theorem parse_guide_row_fields (g s : List Char) (hg : ',' ∉ g)
    (hs : ∀ c ∈ s, ¬(c = ',' ∨ c = '\r' ∨ c = '\n')) :
    parse_guide_row (g ++ ',' :: (s ++ ['\n']))
      = (if (s.dropWhile (fun c => c_isspace c)).length = 0 then RowOutcome.skip
         else if 30 < (s.dropWhile (fun c => c_isspace c)).length then RowOutcome.badLength
         else RowOutcome.guide ⟨(trim_whitespace g).take 255,
            (s.dropWhile (fun c => c_isspace c)).map normalize_base⟩) := by
  have h1 : ¬(g ++ ',' :: (s ++ ['\n'])).length ≤ 1 := by
    simp only [List.length_append, List.length_cons]
    omega
  have h3 : ',' ∉ s ++ ['\n'] := by
    intro hmem
    rcases List.mem_append.mp hmem with hmem | hmem
    · exact hs ',' hmem (Or.inl rfl)
    · simp at hmem
  simp only [parse_guide_row, if_neg h1, split_at_sep_append ',' g (s ++ ['\n']) hg,
    split_at_sep_no_sep ',' (s ++ ['\n']) h3, seq_field_extract s hs]

/-- C6 counterexample: a data row whose sequence field is empty after
processing is silently skipped by `load_guides`; it does not produce the
guide-length error the claim requires for zero-length guides. -/
theorem c6_counterexample :
    parse_guide_row "g1,,\n".toList = RowOutcome.skip
      ∧ RowOutcome.skip ≠ RowOutcome.badLength :=
  ⟨by decide, by decide⟩

/-- C6 (amended): guide ingest aborts with the guide-too-long error
exactly when a row's processed sequence is longer than 30 bytes; a row
whose processed sequence is empty is silently skipped (not an error). -/
theorem c6_amended_guide_length (g s : List Char) (hg : ',' ∉ g)
    (hs : ∀ c ∈ s, ¬(c = ',' ∨ c = '\r' ∨ c = '\n')) :
    ((s.dropWhile (fun c => c_isspace c)).length = 0 →
      parse_guide_row (g ++ ',' :: (s ++ ['\n'])) = RowOutcome.skip)
    ∧ (30 < (s.dropWhile (fun c => c_isspace c)).length →
      parse_guide_row (g ++ ',' :: (s ++ ['\n'])) = RowOutcome.badLength) := by
  rw [parse_guide_row_fields g s hg hs]
  constructor
  · intro h0
    rw [if_pos h0]
  · intro h30
    rw [if_neg (by omega), if_pos h30]

theorem c6_amended_guide_length_witness :
    parse_guide_row ("g1".toList ++ ',' :: (List.replicate 31 'A' ++ ['\n']))
      = RowOutcome.badLength :=
  (c6_amended_guide_length "g1".toList (List.replicate 31 'A')
    (by decide) (by decide)).2 (by decide)

/-- C9 counterexample: in the row `g1,ACGT ` the trailing space of the
sequence field is not trimmed; it survives into normalization and is
stored as the symbol 'N', so the stored guide is `ACGTN` of length 5. -/
theorem c9_counterexample :
    parse_guide_row "g1,ACGT \n".toList
        = RowOutcome.guide ⟨"g1".toList, "ACGTN".toList⟩
      ∧ "ACGTN".toList.length = 5 ∧ 'N' ∈ "ACGTN".toList :=
  ⟨by decide, by decide, by decide⟩

/-- C9 (amended): for a data row with gene field `g` and sequence field
`s`, ingest trims the gene field on both sides but removes only the
leading whitespace of the sequence field; every remaining byte of the
sequence field — including trailing whitespace — is normalized (to 'N'
for whitespace) and stored. -/
theorem c9_amended_trimming (g s : List Char) (hg : ',' ∉ g)
    (hs : ∀ c ∈ s, ¬(c = ',' ∨ c = '\r' ∨ c = '\n'))
    (hpos : 0 < (s.dropWhile (fun c => c_isspace c)).length)
    (h30 : (s.dropWhile (fun c => c_isspace c)).length ≤ 30) :
    parse_guide_row (g ++ ',' :: (s ++ ['\n']))
      = RowOutcome.guide ⟨(trim_whitespace g).take 255,
          (s.dropWhile (fun c => c_isspace c)).map normalize_base⟩ := by
  rw [parse_guide_row_fields g s hg hs, if_neg (by omega), if_neg (by omega)]

theorem c9_amended_trimming_witness :
    parse_guide_row (" g1 ".toList ++ ',' :: ("ACGT ".toList ++ ['\n']))
      = RowOutcome.guide ⟨(trim_whitespace " g1 ".toList).take 255,
          ("ACGT ".toList.dropWhile (fun c => c_isspace c)).map normalize_base⟩ :=
  c9_amended_trimming " g1 ".toList "ACGT ".toList (by decide) (by decide)
    (by decide) (by decide)

/-- C10: every stored guide's gene label is the row's trimmed gene field
truncated to its first 255 bytes (the `strncpy` into the 256-byte
`gene` array), the row is accepted without error, and gene fields of at
most 255 bytes are stored unchanged. -/
theorem c10_gene_truncation (g s : List Char) (hg : ',' ∉ g)
    (hs : ∀ c ∈ s, ¬(c = ',' ∨ c = '\r' ∨ c = '\n'))
    (hpos : 0 < (s.dropWhile (fun c => c_isspace c)).length)
    (h30 : (s.dropWhile (fun c => c_isspace c)).length ≤ 30) :
    ∃ gd : Guide, parse_guide_row (g ++ ',' :: (s ++ ['\n'])) = RowOutcome.guide gd
      ∧ gd.gene = (trim_whitespace g).take 255
      ∧ ((trim_whitespace g).length ≤ 255 → gd.gene = trim_whitespace g) := by
  refine ⟨⟨(trim_whitespace g).take 255,
    (s.dropWhile (fun c => c_isspace c)).map normalize_base⟩, ?_, rfl, ?_⟩
  · rw [parse_guide_row_fields g s hg hs, if_neg (by omega), if_neg (by omega)]
  · intro hle
    exact List.take_of_length_le hle

theorem c10_gene_truncation_witness :
    ∃ gd : Guide,
      parse_guide_row (List.replicate 300 'g' ++ ',' :: ("ACGT".toList ++ ['\n']))
          = RowOutcome.guide gd
        ∧ gd.gene = (trim_whitespace (List.replicate 300 'g')).take 255
        ∧ ((trim_whitespace (List.replicate 300 'g')).length ≤ 255 →
            gd.gene = trim_whitespace (List.replicate 300 'g')) :=
  c10_gene_truncation (List.replicate 300 'g') "ACGT".toList
    (by decide) (by decide) (by decide) (by decide)

/-- C5: evaluation of the FASTA header parser at the header
`>t1|||||G1` from the specification's scenario A.  Because `strtok_r`
collapses consecutive `|` separators, the token `G1` receives token
index 1 rather than field index 5, so the parser returns the default
gene symbol "Unknown" instead of "G1". -/
theorem c5_header_empty_fields :
    parse_fasta_header ">t1|||||G1".toList = ("t1".toList, "Unknown".toList)
      ∧ "Unknown".toList ≠ "G1".toList :=
  ⟨by decide, by decide⟩

/-! ### The thread-count override -/

theorem c_isspace_of_digit (c : Char) (hc : c.isDigit = true) : c_isspace c = false := by
  by_contra h
  have h2 : c_isspace c = true := by
    cases hx : c_isspace c
    · exact absurd hx h
    · rfl
  simp only [c_isspace, Bool.or_eq_true, decide_eq_true_iff] at h2
  rcases h2 with ((((h2 | h2) | h2) | h2) | h2) | h2 <;>
    (subst h2; exact absurd hc (by decide))

theorem strtol10_digits (ds : List Char) (hne : ds ≠ [])
    (hdig : ∀ c ∈ ds, c.isDigit = true) :
    strtol10 ds = some (decimal_value ds) := by
  obtain ⟨d, rest, rfl⟩ := List.exists_cons_of_ne_nil hne
  have hd : d.isDigit = true := hdig d (List.mem_cons_self d rest)
  have hdrop : (d :: rest).dropWhile (fun c => c_isspace c) = d :: rest := by
    rw [List.dropWhile_cons, if_neg (by rw [c_isspace_of_digit d hd]; simp)]
  have hplus : ¬d = '+' := fun h => absurd hd (by rw [h]; decide)
  have hminus : ¬d = '-' := fun h => absurd hd (by rw [h]; decide)
  have htake : (d :: rest).takeWhile (fun c => c.isDigit) = d :: rest :=
    List.takeWhile_eq_self_iff.mpr hdig
  simp only [strtol10, hdrop, List.head?_cons,
    if_neg (fun h => hplus (Option.some.inj h)),
    if_neg (fun h => hminus (Option.some.inj h)), htake,
    if_neg (List.cons_ne_nil d rest), decimal_value, one_mul]

/-- C7 counterexample: the override environment variable is named
`TIGER_OFFTARGET_THREADS`, not `OFFTARGET_THREADS`, and the
out-of-range value 2000 is not ignored: it is clamped to 1024 and used
as the worker count. -/
theorem c7_counterexample :
    parse_thread_override (some "2000".toList) = 1024
      ∧ (1024 : ℤ) ≠ 0
      ∧ thread_override_env_name ≠ "OFFTARGET_THREADS".toList :=
  ⟨by decide, by decide, by decide⟩

/-- C7 (amended): the override is read from `TIGER_OFFTARGET_THREADS`.
The returned worker-count override is always 0 (no override) or a value
in [1, 1024]; a digit string with positive value v is used as min(v,
1024), i.e. values above 1024 are clamped to 1024 rather than ignored; a
value that parses as non-positive, or a string in which `strtol`
consumes no digits, is ignored (with a warning in the C code). -/
theorem c7_amended_thread_override :
    (∀ env : Option (List Char),
      parse_thread_override env = 0
        ∨ (1 ≤ parse_thread_override env ∧ parse_thread_override env ≤ 1024))
    ∧ (∀ ds : List Char, ds ≠ [] → (∀ c ∈ ds, c.isDigit = true) →
        0 < decimal_value ds →
        parse_thread_override (some ds) = min (decimal_value ds) 1024)
    ∧ (∀ (s : List Char) (v : ℤ), strtol10 s = some v → v ≤ 0 →
        parse_thread_override (some s) = 0)
    ∧ (∀ s : List Char, strtol10 s = none → parse_thread_override (some s) = 0) := by
  refine ⟨?_, ?_, ?_, ?_⟩
  · intro env
    cases env with
    | none => exact Or.inl rfl
    | some s =>
      by_cases hse : s = []
      · exact Or.inl (by simp [parse_thread_override, hse])
      · rcases hst : strtol10 s with - | v
        · exact Or.inl (by simp [parse_thread_override, hse, hst])
        · simp only [parse_thread_override, if_neg hse, hst]
          split_ifs with h1 h2
          · exact Or.inl rfl
          · exact Or.inr (by constructor <;> omega)
          · exact Or.inr (by constructor <;> omega)
  · intro ds hne hdig hpos
    have hst := strtol10_digits ds hne hdig
    simp only [parse_thread_override, if_neg hne, hst]
    rw [if_neg (by omega)]
    split_ifs with h1 <;> omega
  · intro s v hst hv
    by_cases hse : s = []
    · subst hse
      rw [show strtol10 ([] : List Char) = none from rfl] at hst
      exact absurd hst (by simp)
    · simp only [parse_thread_override, if_neg hse, hst, if_pos hv]
  · intro s hst
    by_cases hse : s = []
    · simp [parse_thread_override, hse]
    · simp only [parse_thread_override, if_neg hse, hst]

theorem c7_amended_thread_override_witness :
    parse_thread_override (some "8".toList) = min (decimal_value "8".toList) 1024 :=
  c7_amended_thread_override.2.1 "8".toList (by decide) (by decide) (by decide)

/-! ### Witnesses at the specification's concrete scenarios -/

theorem c1_scalar_histogram_witness :
    ((process_group_scalar scenC_buf scenC_valid scenC_limit scenC_recs
          scenC_guides).getD 0 default).counts 1
        = spec_count scenC_buf scenC_valid scenC_recs
            ((scenC_guides.getD 0 default).sequence) 1
      ∧ spec_count scenC_buf scenC_valid scenC_recs
          ((scenC_guides.getD 0 default).sequence) 1 = 7 :=
  ⟨c1_scalar_histogram scenC_buf scenC_valid scenC_recs scenC_guides scenC_limit 0 1
      (by decide) (by decide) (by decide) (by decide) (by decide) (by decide),
    by decide⟩

theorem c2_backends_agree_witness :
    (∀ g ∈ scenC_guides, g.sequence.length ≤ 30)
      ∧ process_group_avx2 scenC_buf scenC_valid scenC_limit scenC_recs scenC_guides
          = process_group_scalar scenC_buf scenC_valid scenC_limit scenC_recs scenC_guides :=
  ⟨by decide,
    c2_backends_agree scenC_buf scenC_valid scenC_limit scenC_recs scenC_guides (by decide)⟩

theorem c3_record_partition_witness :
    ((process_group_scalar scenB_buf scenB_valid scenB_limit scenB_recs
          scenB_guides).getD 0 default).counts 0
        = (∑ i ∈ Finset.range scenB_recs.length,
            per_record_count scenB_buf scenB_valid scenB_recs
              ((scenB_guides.getD 0 default).sequence) 0 i)
      ∧ (∑ i ∈ Finset.range scenB_recs.length,
          per_record_count scenB_buf scenB_valid scenB_recs
            ((scenB_guides.getD 0 default).sequence) 0 i) = 3 :=
  ⟨c3_record_partition scenB_buf scenB_valid scenB_recs scenB_guides scenB_limit 0 0
      (by decide) (by decide) (by decide) (by decide) (by decide) (by decide),
    by decide⟩

theorem c4_validity_mask_witness :
    (1 ≤ 2)
      ∧ ((compute_valid_positions "ACXGT".toList 2).getD 0 false = true
          ↔ (0 + 2 ≤ "ACXGT".toList.length
              ∧ ∀ i, i < 2 → "ACXGT".toList.getD (0 + i) 'X' ≠ 'X')) :=
  ⟨by decide, c4_validity_mask "ACXGT".toList 2 0 (by decide)⟩

end Offtarget
